import Mathlib

/-!
Verification development for the cpp-json library (src/json.hpp, src/json.cpp).

The C++ sources are shallowly embedded as executable Lean definitions:

* `Node` embeds the `Node` class hierarchy (`NullNode`, `ValueNode<T>`,
  `ListNode`, `ObjectNode`).  `ObjectNode` holds a `std::map<std::string,
  shared_ptr<Node>>`, embedded here as an association list kept sorted by
  key (`mapInsert` is `children[key] = child`, i.e. ordered insert-or-assign).
* `dumpChars` embeds the compact serializer `Node::dump(std::ostream&)`;
  the stream is embedded as the emitted character list.  `os << (int)` is
  embedded by `intChars` (decimal notation with a leading `-` for negative
  values).  Floating-point values and their formatting are abstracted: a
  `Node.float` carries the numeral text that `operator<<`/`atof` would
  exchange; no theorem below depends on floating-point semantics.
* `stripWs` embeds the first pass of `parse` (whitespace removal outside
  quote regions); `parseRecursively`, `parseObject`/`parseObjectLoop`,
  `parseList`/`parseListLoop` and `parseValue` embed the recursive-descent
  functions of the same names.  The shared cursor `index` into the cleaned
  string is embedded by consuming a `List Char` from the front;
  `json[index]` at the end of the buffer reads `'\x00'` exactly as
  `std::string::operator[]` does at `size()`.  The `while` loops of the
  C++ code are embedded with an explicit fuel argument; exhausting the
  fuel (or running past the end of the buffer, which for the C++ code is
  undefined behaviour) yields the distinguished outcome `ParseErr.diverge`,
  kept distinct from a genuine `throw Malformed` (`ParseErr.malformed`).
* `navKey` embeds `Json::operator[](std::string)` and
  `Json::View::operator[](std::string)` (their bodies are identical up to
  `root` versus `*node`); it returns the updated bound node together with
  the node the returned `View` is bound to.  `navChainSt` composes such
  steps left to right, threading the in-place mutations of the shared
  tree, and records the tree state reached even when a step throws.
* `viewAs`/`viewAssign` embed `Json::View::as<T>()` and
  `Json::View::operator=(T)`.  Both C++ functions perform an unchecked
  `static_pointer_cast<ValueNode<T>>` with no kind test; reading or
  writing through the cast when the dynamic type does not match is
  undefined behaviour, embedded as the result `none`.
* `HNode`/`jsonArray`/`jsonObjectInit` embed the heap structure of
  `Json::array` and `Json::Json(std::initializer_list)`: a `shared_ptr`
  is an address into a store, `make_shared` appends a fresh node, and
  `addChild(value.root)` stores the argument's root address directly.
-/

namespace CppJson

/-- The `ValueType::Concrete` enumeration (json.hpp). -/
inductive Concrete where
  | Object
  | List
  | String
  | Float
  | Int
  | Bool
  | Null
deriving DecidableEq, Repr

/-- The `is_json_leaf_type` concept: `float`, `int`, `std::string`, `bool`. -/
inductive LeafTy where
  | string
  | float
  | int
  | bool
deriving DecidableEq, Repr

/-- The kind computed by `ValueType::get<T>()` for a leaf type `T`. -/
def ValueTypeGet : LeafTy → Concrete
  | .string => .String
  | .float => .Float
  | .int => .Int
  | .bool => .Bool

/-- The `WrongObjectType` error, by its static factory (`NotObject`,
`NotList`, `NotLeaf<T>`, `Unknown`). -/
inductive WrongTy where
  | notObject
  | notList
  | notLeaf (t : LeafTy)
  | unknown
deriving DecidableEq, Repr

/-- Outcome of a parsing step.  `malformed` embeds `throw Malformed()`
(and the `throw new Malformed()` on an unrecognized scalar token);
`diverge` embeds fuel exhaustion, standing for the runs in which the C++
code loops past the end of the buffer (undefined behaviour). -/
inductive ParseErr where
  | malformed
  | diverge
deriving DecidableEq, Repr

/-- The node tree: `NullNode`, `ValueNode<bool>`, `ValueNode<int>`
(embedded as unbounded `Int`; the source does no overflow checking),
`ValueNode<float>` (the payload abstracts the numeral text, see the
module comment), `ValueNode<std::string>`, `ListNode` (vector of owned
children) and `ObjectNode` (`std::map` embedded as a key-sorted
association list). -/
inductive Node where
  | null
  | bool (b : Bool)
  | int (n : Int)
  | float (r : String)
  | string (s : String)
  | list (children : List Node)
  | object (children : List (String × Node))

/-- `Node::type()`: the `ValueType::Concrete` tag fixed at construction. -/
def Node.type : Node → Concrete
  | .null => .Null
  | .bool _ => .Bool
  | .int _ => .Int
  | .float _ => .Float
  | .string _ => .String
  | .list _ => .List
  | .object _ => .Object

/-- A typed leaf value, the payload a `ValueNode<T>` holds (`T` a leaf type). -/
inductive LeafVal where
  | string (s : String)
  | float (r : String)
  | int (n : Int)
  | bool (b : Bool)
deriving DecidableEq, Repr

/-- The leaf type of a `LeafVal`. -/
def LeafVal.ty : LeafVal → LeafTy
  | .string _ => .string
  | .float _ => .float
  | .int _ => .int
  | .bool _ => .bool

/-- The `ValueNode<T>` a leaf value constructs (the template constructor
`Json::Json(T value)`, json.hpp line 193). -/
def jsonOfLeaf : LeafVal → Node
  | .string s => .string s
  | .float r => .float r
  | .int n => .int n
  | .bool b => .bool b

/-- `Json::Json(const char* value)` (json.cpp line 238): it delegates to
`Json(std::string(value))`, which is the leaf-template constructor with
`T = std::string`, so the characters are stored verbatim in a
`ValueNode<std::string>`. -/
def jsonOfCString (s : String) : Node := jsonOfLeaf (.string s)

/-- Decimal digit character, as produced by the stream's integer
formatting. -/
def digitChar (d : Nat) : Char :=
  match d with
  | 0 => '0' | 1 => '1' | 2 => '2' | 3 => '3' | 4 => '4'
  | 5 => '5' | 6 => '6' | 7 => '7' | 8 => '8' | 9 => '9'
  | _ => '*'

/-- Decimal notation of a natural number, most significant digit first,
with an explicit recursion-depth bound (the recursion divides by ten, so
any fuel above the argument suffices; see `natToDigits_fuel`). -/
def natToDigits : Nat → Nat → List Char
  | 0, _ => []
  | fuel + 1, n =>
    if n < 10 then [digitChar n]
    else natToDigits fuel (n / 10) ++ [digitChar (n % 10)]

/-- Decimal notation of a natural number (the digits `operator<<`
emits). -/
def natDigits (n : Nat) : List Char := natToDigits (n + 1) n

/-- Characters `os << value_` emits for a `ValueNode<int>`: decimal
notation, with a leading `-` for negative values. -/
def intChars (n : Int) : List Char :=
  if n < 0 then '-' :: natDigits n.natAbs else natDigits n.toNat

mutual

/-- `Node::dump(std::ostream&)`, compact serialization, with the stream
embedded as the emitted character list.  `NullNode` prints `null`,
`ValueNode<bool>` prints `true`/`false` (the specialization at json.cpp
line 119), `ValueNode<std::string>` prints the value between two quotes
(line 124), `ObjectNode::dump` and `ListNode::dump` interpose `,` after
every child but the last (lines 60 and 90). -/
def dumpChars : Node → List Char
  | .null => ['n', 'u', 'l', 'l']
  | .bool b => if b then ['t', 'r', 'u', 'e'] else ['f', 'a', 'l', 's', 'e']
  | .int n => intChars n
  | .float r => r.data
  | .string s => '"' :: s.data ++ ['"']
  | .object ch => '{' :: dumpEntries ch ++ ['}']
  | .list ch => '[' :: dumpItems ch ++ [']']

/-- Body of the `ObjectNode::dump` loop: `"key":` then the child dump,
then `,` unless the entry is the last one. -/
def dumpEntries : List (String × Node) → List Char
  | [] => []
  | (k, v) :: rest =>
    '"' :: k.data ++ '"' :: ':' :: dumpChars v ++
      (if rest.isEmpty then [] else ',' :: dumpEntries rest)

/-- Body of the `ListNode::dump` loop. -/
def dumpItems : List Node → List Char
  | [] => []
  | v :: rest => dumpChars v ++ (if rest.isEmpty then [] else ',' :: dumpItems rest)

end

/-- `Node::dump` packaged as the text written to the stream. -/
def Node.dump (t : Node) : String := ⟨dumpChars t⟩

/-- `std::isspace` in the default C locale: space, `\t`, `\n`, `\v`,
`\f`, `\r`. -/
def isSpaceCh (c : Char) : Bool :=
  c = ' ' || c = '\t' || c = '\n' || c = Char.ofNat 11 || c = Char.ofNat 12 || c = '\r'

/-- First pass of `parse` (json.cpp lines 131-137): drop whitespace
outside quote regions.  The flag is toggled on every `'"'` before the
whitespace test, exactly as in the source (a quote is never whitespace,
so the order is observable only through the region the following
characters fall in). -/
def stripWs : List Char → Bool → List Char
  | [], _ => []
  | c :: cs, inside =>
    let inside2 := if c = '"' then !inside else inside
    if isSpaceCh c && !inside2 then stripWs cs inside2
    else c :: stripWs cs inside2

/-- Current character of the remaining input: `json[index]`, which for
`std::string` reads `'\x00'` at `size()`. -/
def peek : List Char → Char
  | [] => Char.ofNat 0
  | c :: _ => c

/-- The `is_number` lambda of `parseValue` (json.cpp line 213). -/
def isNumberCh (c : Char) : Bool := decide ('0' ≤ c) && decide (c ≤ '9')

/-- Predicate of the number-consuming loop of `parseValue` (json.cpp
line 217): the current character is `'.'` or a digit. -/
def numPred (c : Char) : Bool := c = '.' || isNumberCh c

/-- `atoi` on the consumed digit run: the decimal value, accumulated left
to right. -/
def digitsVal (l : List Char) : Int :=
  l.foldl (fun a c => a * 10 + ((c.toNat : Int) - 48)) 0

/-- `parseValue` (json.cpp lines 202-234).  Checks the `true`/`false`
literal prefixes first (`substr` comparison), then the number branch
(maximal run of `'.'` or digit characters — note the source places no
bound on the number of dots — classified `Float` if any dot was seen,
else `Int`), then the string branch (`json[index++] == '"'`, then
characters up to the next quote).  Anything else is
`throw new Malformed()`.  An unterminated string makes the C++ loop run
past the buffer (undefined behaviour), embedded as `diverge`. -/
def parseValue (s : List Char) : Except ParseErr (Node × List Char) :=
  if s.take 4 = ['t', 'r', 'u', 'e'] then .ok (.bool true, s.drop 4)
  else if s.take 5 = ['f', 'a', 'l', 's', 'e'] then .ok (.bool false, s.drop 5)
  else if isNumberCh (peek s) then
    let tok := s.takeWhile numPred
    let rest := s.dropWhile numPred
    if tok.contains '.' then .ok (.float ⟨tok⟩, rest)
    else .ok (.int (digitsVal tok), rest)
  else if peek s = '"' then
    let s1 := s.drop 1
    if (s1.dropWhile (fun c => !(c = '"'))).isEmpty then .error .diverge
    else
      .ok (.string ⟨s1.takeWhile (fun c => !(c = '"'))⟩,
        (s1.dropWhile (fun c => !(c = '"'))).drop 1)
  else .error .malformed

/-- Byte-wise lexicographic comparison of character lists, embedding
`std::string::operator<` (`std::lexicographical_compare` over the
bytes; the keys this development evaluates on are ASCII, where byte
order and codepoint order agree). -/
def strLt : List Char → List Char → Bool
  | [], [] => false
  | [], _ :: _ => true
  | _ :: _, [] => false
  | a :: as, b :: bs =>
    if a.toNat < b.toNat then true
    else if b.toNat < a.toNat then false
    else strLt as bs

/-- `operator<` on `std::string` keys. -/
def keyLt (a b : String) : Bool := strLt a.data b.data

/-- `ObjectNode::addOrEditChild` (json.cpp line 46): `children[key] =
child` on the `std::map`, i.e. ordered insert-or-assign on the key-sorted
association list. -/
def mapInsert (key : String) (child : Node) : List (String × Node) → List (String × Node)
  | [] => [(key, child)]
  | (k, v) :: rest =>
    if keyLt key k then (key, child) :: (k, v) :: rest
    else if key = k then (key, child) :: rest
    else (k, v) :: mapInsert key child rest

/-- One pending activation of the recursive-descent parser: a
`parseRecursively` dispatch, an iteration of the `parseObject` loop
(with the entries accumulated so far), or an iteration of the
`parseList` loop. -/
inductive ParseCall where
  | descend (s : List Char)
  | objLoop (acc : List (String × Node)) (s : List Char)
  | listLoop (acc : List Node) (s : List Char)

/-- The mutually recursive parser functions of json.cpp, combined into a
single function structurally recursive on the fuel; the named wrappers
`parseRecursively`, `parseObject`, `parseObjectLoop`, `parseList`,
`parseListLoop` below restore the source's shape definitionally.

`.descend s` is `parseRecursively` (json.cpp line 145): dispatch on the
current character; `{` enters the object loop past the brace, `[` the
list loop past the bracket, anything else goes to `parseValue`.

`.objLoop acc s` is one `while (json[index] != '}')` iteration of
`parseObject` (line 156): expect `'"'` (else `throw Malformed()`), read
the key up to the next quote, skip that quote and the following
character (the colon position is not checked), parse the value, skip one
character if the current one is not `}` (the comma position is not
checked either), and `addOrEditChild` the pair.  An unterminated key
makes the C++ loop run past the buffer, embedded as `diverge`.

`.listLoop acc s` is one `while (json[index] != ']')` iteration of
`parseList` (line 186): parse a child, `push_back` it, skip one
character if the current one is not `]`. -/
def parseRun : Nat → ParseCall → Except ParseErr (Node × List Char)
  | 0, _ => .error .diverge
  | fuel + 1, .descend s =>
    if peek s = '{' then parseRun fuel (.objLoop [] (s.drop 1))
    else if peek s = '[' then parseRun fuel (.listLoop [] (s.drop 1))
    else parseValue s
  | fuel + 1, .objLoop acc s =>
    if peek s = '}' then .ok (.object acc, s.drop 1)
    else if peek s = '"' then
      let s1 := s.drop 1
      if (s1.dropWhile (fun c => !(c = '"'))).isEmpty then .error .diverge
      else
        let key : String := ⟨s1.takeWhile (fun c => !(c = '"'))⟩
        let s3 := (s1.dropWhile (fun c => !(c = '"'))).drop 2
        (parseRun fuel (.descend s3)).bind fun vs =>
          parseRun fuel
            (.objLoop (mapInsert key vs.1 acc) (if peek vs.2 = '}' then vs.2 else vs.2.drop 1))
    else .error .malformed
  | fuel + 1, .listLoop acc s =>
    if peek s = ']' then .ok (.list acc, s.drop 1)
    else
      (parseRun fuel (.descend s)).bind fun vs =>
        parseRun fuel
          (.listLoop (acc ++ [vs.1]) (if peek vs.2 = ']' then vs.2 else vs.2.drop 1))

/-- `parseRecursively` (json.cpp line 145). -/
def parseRecursively (fuel : Nat) (s : List Char) : Except ParseErr (Node × List Char) :=
  parseRun fuel (.descend s)

/-- `parseObject` (json.cpp line 156): skip the opening `{`, then loop. -/
def parseObject (fuel : Nat) (s : List Char) : Except ParseErr (Node × List Char) :=
  parseRun fuel (.objLoop [] (s.drop 1))

/-- The `parseObject` loop with the entries accumulated so far. -/
def parseObjectLoop (fuel : Nat) (acc : List (String × Node)) (s : List Char) :
    Except ParseErr (Node × List Char) :=
  parseRun fuel (.objLoop acc s)

/-- `parseList` (json.cpp line 186): skip the opening `[`, then loop. -/
def parseList (fuel : Nat) (s : List Char) : Except ParseErr (Node × List Char) :=
  parseRun fuel (.listLoop [] (s.drop 1))

/-- The `parseList` loop with the items accumulated so far. -/
def parseListLoop (fuel : Nat) (acc : List Node) (s : List Char) :
    Except ParseErr (Node × List Char) :=
  parseRun fuel (.listLoop acc s)

/-- `parse` (json.cpp line 128): strip whitespace outside strings, then
descend from index 0.  The fuel `4 * length + 4` is enough for every run
in which the C++ loops terminate within the buffer (each nested call and
loop iteration consumes input); the result drops the final cursor, as the
C++ function ignores trailing text. -/
def parse (s : String) : Except ParseErr Node :=
  let clean := stripWs s.data false
  match parseRecursively (4 * clean.length + 4) clean with
  | .error e => .error e
  | .ok (t, _) => .ok t

/-- `std::map::find` on the embedded map. -/
def mapFind (key : String) : List (String × Node) → Option Node
  | [] => none
  | (k, v) :: rest => if k = key then some v else mapFind key rest

/-- `Json::operator[](std::string)` (json.cpp line 267) and
`Json::View::operator[](std::string)` (line 287); the two bodies are
identical up to reading `root` versus `*node`.  On a non-Object bound
node: `throw WrongObjectType::NotObject()`.  Otherwise, if the key is
found the returned `View` is bound to the existing child and the map is
untouched; if not, a fresh `NullNode` is inserted under the key and the
returned `View` is bound to it.  The result pairs the updated bound node
with the node the returned `View` is bound to. -/
def navKey (n : Node) (key : String) : Except WrongTy (Node × Node) :=
  match n with
  | .object ch =>
    match mapFind key ch with
    | some child => .ok (.object ch, child)
    | none => .ok (.object (mapInsert key .null ch), .null)
  | _ => .error .notObject

/-- Store the (possibly mutated) child back into the slot it was read
from: through the shared pointers of the C++ tree this aliasing is
implicit; the functional embedding re-installs the child under its key. -/
def setKey (n : Node) (key : String) (c : Node) : Node :=
  match n with
  | .object ch => .object (mapInsert key c ch)
  | _ => n

/-- Chained key navigation `root[k1][k2]…`, composing `navKey` left to
right.  The first component is the tree state after the chain ran —
including the mutations of the steps that succeeded before an exception,
which in C++ persist when `WrongObjectType` propagates — and the second
is the outcome. -/
def navChainSt : Node → List String → Node × Except WrongTy Unit
  | n, [] => (n, .ok ())
  | n, k :: ks =>
    match navKey n k with
    | .error e => (n, .error e)
    | .ok (n2, c) =>
      let r := navChainSt c ks
      (setKey n2 k r.1, r.2)

/-- `Json::View::as<T>()` (json.hpp lines 182-185):
`static_pointer_cast<ValueNode<T>>(*node)->value()` — an unchecked
downcast with no kind test (`Json::as<T>` at lines 202-205 is the same
on `root`).  When the bound node is a `ValueNode<T>` of the requested
type the stored value is returned; for every other node (other leaf
kind, Null, or a container) reading through the cast is undefined
behaviour, embedded as `none`.  No exception can be raised. -/
def viewAs (n : Node) (T : LeafTy) : Option LeafVal :=
  match n, T with
  | .string s, .string => some (.string s)
  | .float r, .float => some (.float r)
  | .int i, .int => some (.int i)
  | .bool b, .bool => some (.bool b)
  | _, _ => none

/-- `Json::View::operator=(T value)` (json.hpp lines 177-181):
`*static_pointer_cast<ValueNode<T>>(*node) = value` — the same unchecked
downcast, then `ValueNode<T>::operator=` overwrites the stored value in
place.  On a matching node the result is the node updated to the new
value; otherwise the write is undefined behaviour, embedded as `none`. -/
def viewAssign (n : Node) (v : LeafVal) : Option Node :=
  match n, v with
  | .string _, .string s => some (.string s)
  | .float _, .float r => some (.float r)
  | .int _, .int i => some (.int i)
  | .bool _, .bool b => some (.bool b)
  | _, _ => none

/-- Heap node for the ownership model: children of containers are
addresses (`shared_ptr<Node>` targets) into a store. -/
inductive HNode where
  | null
  | bool (b : Bool)
  | int (n : Int)
  | float (r : String)
  | string (s : String)
  | list (children : List Nat)
  | object (children : List (String × Nat))
deriving DecidableEq, Repr

/-- `std::make_shared`: a fresh node appended to the store; its address
is the previous store size. -/
def alloc (h : List HNode) (n : HNode) : List HNode × Nat := (h ++ [n], h.length)

/-- `Json::array(std::initializer_list<Json>&)` (json.cpp lines 247-253):
`make_shared<ListNode>()`, then `node->addChild(value.root)` for each
argument — the argument documents' root addresses are stored directly,
without copying the subtrees. -/
def jsonArray (h : List HNode) (roots : List Nat) : List HNode × Nat :=
  alloc h (.list roots)

/-- `addOrEditChild` at the address level (ordered insert-or-assign). -/
def hmapInsert (key : String) (a : Nat) : List (String × Nat) → List (String × Nat)
  | [] => [(key, a)]
  | (k, v) :: rest =>
    if keyLt key k then (key, a) :: (k, v) :: rest
    else if key = k then (key, a) :: rest
    else (k, v) :: hmapInsert key a rest

/-- `Json::Json(std::initializer_list<std::pair<std::string, Json>>)`
(json.cpp lines 259-265): `make_shared<ObjectNode>()`, then
`addOrEditChild(key, value.root)` for each pair, storing the argument
roots' addresses directly. -/
def jsonObjectInit (h : List HNode) (entries : List (String × Nat)) : List HNode × Nat :=
  alloc h (.object (entries.foldl (fun m e => hmapInsert e.1 e.2 m) []))

/-- Number of container slots of one heap node that point at address
`a`. -/
def slotRefs (a : Nat) : HNode → Nat
  | .list cs => cs.count a
  | .object cs => (cs.map Prod.snd).count a
  | _ => 0

/-- Number of container slots of the whole store that point at `a`: the
number of parent slots owning the node at `a`. -/
def ownerSlots (h : List HNode) (a : Nat) : Nat := (h.map (slotRefs a)).sum

/-- Whitespace removal as the spec words it (§4.2): walking the text with
a count of the double quotes encountered so far (region tracking toggling
on every quote), a character is dropped exactly when it is whitespace and
it lies outside a string region, i.e. when the quote count is even; all
other characters are kept.  Stated with an explicit quote counter so that
agreement with the implementation's Boolean flag is a theorem, not a
definition. -/
def removeWsSpec : List Char → Nat → List Char
  | [], _ => []
  | c :: cs, q =>
    let q2 := if c = '"' then q + 1 else q
    if isSpaceCh c && q2 % 2 == 0 then removeWsSpec cs q2
    else c :: removeWsSpec cs q2

/-- The in-string flag at the end of a chunk, given the flag at its
start: `stripWs`'s Boolean is toggled by every quote of the chunk. -/
def qtog (a : List Char) (i : Bool) : Bool :=
  a.foldl (fun b c => if c = '"' then !b else b) i

/-- Adjacent strict ordering of the keys of an embedded `std::map`
association list (the representation invariant `std::map` maintains). -/
def keysSorted : List (String × Node) → Bool
  | [] => true
  | [_] => true
  | a :: b :: rest => keyLt a.1 b.1 && keysSorted (b :: rest)

mutual

/-- Trees for which the compact serialization stays inside the grammar
the parser accepts: no `Null` leaf (the parser has no `null` literal), no
`Float` leaf (floating-point formatting is outside the embedding, and the
scalar grammar has no sign or exponent anyway), only non-negative `Int`
leaves (the scalar parser has no `-` handling), and no `"` inside strings
or keys (the serializer does not escape them); object children sorted by
key, as `std::map` guarantees for every tree the C++ API can build. -/
def Good : Node → Bool
  | .null => false
  | .bool _ => true
  | .int n => decide (0 ≤ n)
  | .float _ => false
  | .string s => !(s.data.contains '"')
  | .list ch => goodItems ch
  | .object ch => keysSorted ch && goodEntries ch

/-- `Good` on the children of a `ListNode`. -/
def goodItems : List Node → Bool
  | [] => true
  | v :: rest => Good v && goodItems rest

/-- `Good` on the entries of an `ObjectNode`, plus quote-free keys. -/
def goodEntries : List (String × Node) → Bool
  | [] => true
  | (k, v) :: rest => !(k.data.contains '"') && Good v && goodEntries rest

end

mutual

/-- Fuel consumed by the parser on the dump of a tree: one unit per
`parseRecursively` dispatch and per loop iteration, summed.  Used to show
the fuel chosen in `parse` suffices. -/
def cost : Node → Nat
  | .object ch => 1 + costEntries ch
  | .list ch => 1 + costItems ch
  | _ => 1

/-- Fuel consumed by `parseObjectLoop` on serialized entries. -/
def costEntries : List (String × Node) → Nat
  | [] => 1
  | (_, v) :: rest => 1 + cost v + costEntries rest

/-- Fuel consumed by `parseListLoop` on serialized items. -/
def costItems : List Node → Nat
  | [] => 1
  | v :: rest => 1 + cost v + costItems rest

end

/-! Helper lemmas. -/

theorem stripWs_toggle (cs : List Char) (q : Nat) :
    stripWs cs (decide (q % 2 = 1)) = removeWsSpec cs q := by
  induction cs generalizing q with
  | nil => rfl
  | cons c cs ih =>
    have hpar : ∀ m : Nat, (!decide (m % 2 = 1)) = (m % 2 == 0) := by
      intro m
      rcases Nat.mod_two_eq_zero_or_one m with h | h <;> simp [h]
    by_cases hc : c = '"'
    · have hq : (!decide (q % 2 = 1)) = decide ((q + 1) % 2 = 1) := by
        rcases Nat.mod_two_eq_zero_or_one q with h | h
        · have h2 : (q + 1) % 2 = 1 := by omega
          simp [h, h2]
        · have h2 : (q + 1) % 2 = 0 := by omega
          simp [h, h2]
      simp only [stripWs, removeWsSpec, hc, if_true]
      rw [hq, ih (q + 1), hpar]
    · simp only [stripWs, removeWsSpec, hc, if_false]
      rw [ih q, hpar]

theorem stripWs_sublist (cs : List Char) (b : Bool) : (stripWs cs b).Sublist cs := by
  induction cs generalizing b with
  | nil => simp [stripWs]
  | cons c cs ih =>
    simp only [stripWs]
    generalize (if c = '"' then !b else b) = b2
    split
    · exact (ih _).cons c
    · exact (ih _).cons₂ c

theorem mapFind_mapInsert_ne (k2 key : String) (v : Node) (l : List (String × Node))
    (h : k2 ≠ key) : mapFind k2 (mapInsert key v l) = mapFind k2 l := by
  have hne : ¬ key = k2 := fun e => h e.symm
  induction l with
  | nil => simp [mapInsert, mapFind, hne]
  | cons hd rest ih =>
    obtain ⟨k0, v0⟩ := hd
    simp only [mapInsert]
    by_cases h1 : keyLt key k0
    · simp [h1, mapFind, hne]
    · rw [if_neg (by simp [h1])]
      by_cases h2 : key = k0
      · rw [if_pos h2]
        subst h2
        simp [mapFind, hne]
      · rw [if_neg h2]
        simp only [mapFind]
        rw [ih]

theorem contains_false_iff (l : List Char) (a : Char) :
    l.contains a = false ↔ ∀ c ∈ l, c ≠ a := by
  constructor
  · intro h c hc e
    subst e
    rw [show l.contains c = l.elem c from rfl, List.elem_eq_mem, decide_eq_false_iff_not] at h
    exact h hc
  · intro h
    rw [show l.contains a = l.elem a from rfl, List.elem_eq_mem, decide_eq_false_iff_not]
    intro hm
    exact h a hm rfl

theorem peek_dropWhile (p : Char → Bool) (l : List Char) (h0 : p (Char.ofNat 0) = false) :
    p (peek (l.dropWhile p)) = false := by
  induction l with
  | nil => simpa [peek] using h0
  | cons c l ih =>
    by_cases hc : p c
    · simpa [List.dropWhile_cons_of_pos hc] using ih
    · simpa [List.dropWhile_cons_of_neg hc, peek] using hc

theorem takeWhile_peek_false (p : Char → Bool) (l : List Char) (h : p (peek l) = false) :
    l.takeWhile p = [] ∧ l.dropWhile p = l := by
  cases l with
  | nil => exact ⟨rfl, rfl⟩
  | cons c l =>
    have hc : ¬ p c := by simpa [peek] using h
    exact ⟨List.takeWhile_cons_of_neg hc, List.dropWhile_cons_of_neg hc⟩

theorem strLt_irrefl (l : List Char) : strLt l l = false := by
  induction l with
  | nil => rfl
  | cons c l ih => simp [strLt, ih]

theorem strLt_asymm (a b : List Char) (h : strLt a b = true) : strLt b a = false := by
  induction a generalizing b with
  | nil =>
    cases b with
    | nil => simpa [strLt] using h
    | cons bh bt => simp [strLt]
  | cons ah at2 ih =>
    cases b with
    | nil => simpa [strLt] using h
    | cons bh bt =>
      simp only [strLt] at h ⊢
      by_cases h1 : ah.toNat < bh.toNat
      · rw [if_neg (by omega), if_pos h1]
      · rw [if_neg h1] at h
        by_cases h2 : bh.toNat < ah.toNat
        · rw [if_pos h2] at h
          exact absurd h (by decide)
        · rw [if_neg h2] at h
          rw [if_neg h2, if_neg h1]
          exact ih bt h

theorem strLt_trans (a b c : List Char) (h1 : strLt a b = true) (h2 : strLt b c = true) :
    strLt a c = true := by
  induction a generalizing b c with
  | nil =>
    cases b with
    | nil => simpa [strLt] using h1
    | cons bh bt =>
      cases c with
      | nil => simpa [strLt] using h2
      | cons ch ct => simp [strLt]
  | cons ah at2 ih =>
    cases b with
    | nil => simpa [strLt] using h1
    | cons bh bt =>
      cases c with
      | nil => simpa [strLt] using h2
      | cons ch ct =>
        simp only [strLt] at h1 h2 ⊢
        by_cases hab : ah.toNat < bh.toNat
        · by_cases hbc : bh.toNat < ch.toNat
          · rw [if_pos (by omega)]
          · rw [if_neg hbc] at h2
            by_cases hcb : ch.toNat < bh.toNat
            · rw [if_pos hcb] at h2
              exact absurd h2 (by decide)
            · rw [if_pos (by omega)]
        · rw [if_neg hab] at h1
          by_cases hba : bh.toNat < ah.toNat
          · rw [if_pos hba] at h1
            exact absurd h1 (by decide)
          · rw [if_neg hba] at h1
            by_cases hbc : bh.toNat < ch.toNat
            · rw [if_pos (by omega)]
            · rw [if_neg hbc] at h2
              by_cases hcb : ch.toNat < bh.toNat
              · rw [if_pos hcb] at h2
                exact absurd h2 (by decide)
              · rw [if_neg hcb] at h2
                rw [if_neg (by omega), if_neg (by omega)]
                exact ih bt ct h1 h2

theorem keyLt_irrefl (a : String) : keyLt a a = false := strLt_irrefl a.data

theorem keyLt_asymm (a b : String) (h : keyLt a b = true) : keyLt b a = false :=
  strLt_asymm a.data b.data h

theorem keyLt_trans (a b c : String) (h1 : keyLt a b = true) (h2 : keyLt b c = true) :
    keyLt a c = true :=
  strLt_trans a.data b.data c.data h1 h2

theorem keyLt_ne (a b : String) (h : keyLt a b = true) : a ≠ b := by
  intro e
  subst e
  rw [keyLt_irrefl] at h
  exact absurd h (by decide)

theorem mapInsert_gt (k : String) (v : Node) (l : List (String × Node))
    (h : ∀ x ∈ l, keyLt x.1 k = true) : mapInsert k v l = l ++ [(k, v)] := by
  induction l with
  | nil => rfl
  | cons hd rest ih =>
    obtain ⟨k0, v0⟩ := hd
    have h0 : keyLt k0 k = true := h (k0, v0) (List.mem_cons_self _ _)
    have h1 : keyLt k k0 = false := keyLt_asymm _ _ h0
    have h2 : ¬ k = k0 := fun e => (keyLt_ne k0 k h0) e.symm
    simp only [mapInsert, h1, Bool.false_eq_true, if_false, if_neg h2, List.cons_append,
      List.cons.injEq, true_and]
    exact ih fun x hx => h x (List.mem_cons_of_mem _ hx)

theorem keysSorted_pairwise (es : List (String × Node)) (h : keysSorted es = true) :
    List.Pairwise (fun a b : String × Node => keyLt a.1 b.1 = true) es := by
  induction es with
  | nil => exact List.Pairwise.nil
  | cons a rest ih =>
    cases rest with
    | nil => exact List.pairwise_singleton _ a
    | cons b rest2 =>
      simp only [keysSorted, Bool.and_eq_true] at h
      have hpw := ih h.2
      refine List.Pairwise.cons (fun x hx => ?_) hpw
      rcases List.mem_cons.mp hx with rfl | hx2
      · exact h.1
      · exact keyLt_trans _ _ _ h.1 ((List.pairwise_cons.mp hpw).1 x hx2)

theorem natToDigits_fuel (n : Nat) : ∀ f g, n < f → n < g → natToDigits f n = natToDigits g n := by
  induction n using Nat.strong_induction_on with
  | _ n ih =>
    intro f g hf hg
    cases f with
    | zero => omega
    | succ f1 =>
      cases g with
      | zero => omega
      | succ g1 =>
        by_cases h10 : n < 10
        · simp only [natToDigits, if_pos h10]
        · have hd : n / 10 < n := Nat.div_lt_self (by omega) (by omega)
          simp only [natToDigits, if_neg h10]
          rw [ih (n / 10) hd f1 g1 (by omega) (by omega)]

theorem natDigits_unfold (n : Nat) :
    natDigits n =
      if n < 10 then [digitChar n] else natToDigits n (n / 10) ++ [digitChar (n % 10)] :=
  rfl

theorem natDigits_small (n : Nat) (h : n < 10) : natDigits n = [digitChar n] := by
  rw [natDigits_unfold, if_pos h]

theorem natDigits_ten (n : Nat) (h : 10 ≤ n) :
    natDigits n = natDigits (n / 10) ++ [digitChar (n % 10)] := by
  have hd : n / 10 < n := Nat.div_lt_self (by omega) (by omega)
  rw [natDigits_unfold, if_neg (by omega : ¬ n < 10),
    natToDigits_fuel (n / 10) n (n / 10 + 1) hd (Nat.lt_succ_self _)]
  rfl

theorem digitChar_toNat (d : Nat) (h : d < 10) : (digitChar d).toNat = 48 + d := by
  interval_cases d <;> rfl

theorem digitChar_isNumberCh (d : Nat) (h : d < 10) : isNumberCh (digitChar d) = true := by
  interval_cases d <;> decide

theorem natDigits_ne_nil (n : Nat) : natDigits n ≠ [] := by
  by_cases h : n < 10
  · rw [natDigits_small n h]
    exact List.cons_ne_nil _ _
  · rw [natDigits_ten n (by omega)]
    simp

theorem natDigits_digits (n : Nat) : ∀ c ∈ natDigits n, isNumberCh c = true := by
  induction n using Nat.strong_induction_on with
  | _ n ih =>
    by_cases h : n < 10
    · rw [natDigits_small n h]
      intro c hc
      rw [List.mem_singleton.mp hc]
      exact digitChar_isNumberCh n h
    · rw [natDigits_ten n (by omega)]
      intro c hc
      rcases List.mem_append.mp hc with hc1 | hc2
      · exact ih (n / 10) (Nat.div_lt_self (by omega) (by omega)) c hc1
      · rw [List.mem_singleton.mp hc2]
        exact digitChar_isNumberCh _ (Nat.mod_lt _ (by omega))

theorem natDigits_head (n : Nat) :
    ∃ c l, natDigits n = c :: l ∧ isNumberCh c = true := by
  cases hnd : natDigits n with
  | nil => exact absurd hnd (natDigits_ne_nil n)
  | cons c l =>
    exact ⟨c, l, rfl, natDigits_digits n c (by rw [hnd]; exact List.mem_cons_self _ _)⟩

theorem digitsVal_natDigits (n : Nat) : digitsVal (natDigits n) = (n : Int) := by
  induction n using Nat.strong_induction_on with
  | _ n ih =>
    by_cases h : n < 10
    · rw [natDigits_small n h]
      simp only [digitsVal, List.foldl_cons, List.foldl_nil]
      rw [digitChar_toNat n h]
      push_cast
      omega
    · rw [natDigits_ten n (by omega)]
      have happ : digitsVal (natDigits (n / 10) ++ [digitChar (n % 10)]) =
          digitsVal (natDigits (n / 10)) * 10 + (((digitChar (n % 10)).toNat : Int) - 48) := by
        simp [digitsVal, List.foldl_append]
      rw [happ, ih (n / 10) (Nat.div_lt_self (by omega) (by omega)),
        digitChar_toNat _ (Nat.mod_lt _ (by omega))]
      push_cast
      omega

theorem isNumberCh_ne (c c2 : Char) (h : isNumberCh c = true) (h2 : isNumberCh c2 = false) :
    c ≠ c2 := by
  intro e
  subst e
  rw [h] at h2
  exact absurd h2 (by decide)

theorem parseValue_true_dump (rest : List Char) :
    parseValue (['t', 'r', 'u', 'e'] ++ rest) = .ok (.bool true, rest) := by
  simp [parseValue]

theorem parseValue_false_dump (rest : List Char) :
    parseValue (['f', 'a', 'l', 's', 'e'] ++ rest) = .ok (.bool false, rest) := by
  simp [parseValue]

theorem parseValue_digits (m : Nat) (rest : List Char) (hr : numPred (peek rest) = false) :
    parseValue (natDigits m ++ rest) = .ok (.int (m : Int), rest) := by
  obtain ⟨c, l, hcl, hc⟩ := natDigits_head m
  have hall : ∀ x ∈ natDigits m, numPred x = true := fun x hx => by
    simp [numPred, natDigits_digits m x hx]
  have htw : (natDigits m ++ rest).takeWhile numPred = natDigits m := by
    rw [List.takeWhile_append_of_pos hall, (takeWhile_peek_false numPred rest hr).1,
      List.append_nil]
  have hdw : (natDigits m ++ rest).dropWhile numPred = rest := by
    rw [List.dropWhile_append_of_pos hall, (takeWhile_peek_false numPred rest hr).2]
  have h1 : (natDigits m ++ rest).take 4 ≠ ['t', 'r', 'u', 'e'] := by
    rw [hcl]
    simp only [List.cons_append, List.take_succ_cons]
    intro he
    exact isNumberCh_ne c 't' hc (by decide) (List.cons.inj he).1
  have h2 : (natDigits m ++ rest).take 5 ≠ ['f', 'a', 'l', 's', 'e'] := by
    rw [hcl]
    simp only [List.cons_append, List.take_succ_cons]
    intro he
    exact isNumberCh_ne c 'f' hc (by decide) (List.cons.inj he).1
  have h3 : isNumberCh (peek (natDigits m ++ rest)) = true := by
    rw [hcl]
    simpa only [List.cons_append, peek] using hc
  have hnodot : (natDigits m).contains '.' = false :=
    (contains_false_iff _ _).mpr fun x hx =>
      isNumberCh_ne x '.' (natDigits_digits m x hx) (by decide)
  simp only [parseValue]
  rw [if_neg h1, if_neg h2, if_pos h3, htw, hdw, hnodot]
  rw [if_neg (by decide : ¬ (false = true)), digitsVal_natDigits]

theorem parseValue_quoted (l rest : List Char) (hq : ∀ c ∈ l, c ≠ '"') :
    parseValue ('"' :: l ++ '"' :: rest) = .ok (.string ⟨l⟩, rest) := by
  have hp : ∀ c ∈ l, (fun c => !(c = '"')) c = true := fun c hc => by simp [hq c hc]
  have h1 : ('"' :: l ++ '"' :: rest).take 4 ≠ ['t', 'r', 'u', 'e'] := by
    simp only [List.cons_append, List.take_succ_cons]
    intro he
    exact absurd (List.cons.inj he).1 (by decide)
  have h2 : ('"' :: l ++ '"' :: rest).take 5 ≠ ['f', 'a', 'l', 's', 'e'] := by
    simp only [List.cons_append, List.take_succ_cons]
    intro he
    exact absurd (List.cons.inj he).1 (by decide)
  have h3 : ¬ (isNumberCh (peek ('"' :: l ++ '"' :: rest)) = true) := by
    simp only [List.cons_append, peek]
    decide
  have h4 : peek ('"' :: l ++ '"' :: rest) = '"' := by
    simp only [List.cons_append, peek]
  have hdw : (('"' :: l ++ '"' :: rest).drop 1).dropWhile (fun c => !(c = '"')) =
      '"' :: rest := by
    simp only [List.cons_append, List.drop_succ_cons, List.drop_zero]
    rw [List.dropWhile_append_of_pos hp, List.dropWhile_cons_of_neg (by simp)]
  have htw : (('"' :: l ++ '"' :: rest).drop 1).takeWhile (fun c => !(c = '"')) = l := by
    simp only [List.cons_append, List.drop_succ_cons, List.drop_zero]
    rw [List.takeWhile_append_of_pos hp, List.takeWhile_cons_of_neg (by simp),
      List.append_nil]
  simp only [parseValue]
  rw [if_neg h1, if_neg h2, if_neg h3, if_pos h4, hdw, htw]
  rw [if_neg (by simp : ¬ (('"' :: rest).isEmpty = true))]
  simp

theorem qtog_append (a b : List Char) (i : Bool) :
    qtog (a ++ b) i = qtog b (qtog a i) := by
  simp [qtog, List.foldl_append]

theorem stripWs_cons_quote (l : List Char) (i : Bool) :
    stripWs ('"' :: l) i = '"' :: stripWs l (!i) :=
  rfl

theorem qtog_cons_quote (l : List Char) (i : Bool) : qtog ('"' :: l) i = qtog l (!i) :=
  rfl

theorem stripWs_cons_clean (c : Char) (l : List Char) (i : Bool)
    (hsp : isSpaceCh c = false) (hq : c ≠ '"') : stripWs (c :: l) i = c :: stripWs l i := by
  simp only [stripWs, if_neg hq, hsp, Bool.false_and, Bool.false_eq_true, if_false]

theorem qtog_cons_clean (c : Char) (l : List Char) (i : Bool) (hq : c ≠ '"') :
    qtog (c :: l) i = qtog l i := by
  simp only [qtog, List.foldl_cons, if_neg hq]

theorem stripWs_append (a b : List Char) (i : Bool) :
    stripWs (a ++ b) i = stripWs a i ++ stripWs b (qtog a i) := by
  induction a generalizing i with
  | nil => simp [qtog, stripWs]
  | cons c a ih =>
    simp only [List.cons_append, stripWs, qtog, List.foldl_cons, List.append_eq]
    generalize (if c = '"' then !i else i) = i2
    by_cases hcond : (isSpaceCh c && !i2) = true
    · rw [if_pos hcond, if_pos hcond]
      exact ih i2
    · rw [if_neg hcond, if_neg hcond, ih i2]
      rfl

theorem stripWs_clean (l : List Char) (h : ∀ c ∈ l, isSpaceCh c = false ∧ c ≠ '"') (i : Bool) :
    stripWs l i = l ∧ qtog l i = i := by
  induction l with
  | nil => exact ⟨rfl, rfl⟩
  | cons c l ih =>
    obtain ⟨hsp, hqc⟩ := h c (List.mem_cons_self _ _)
    have ih2 := ih fun x hx => h x (List.mem_cons_of_mem _ hx)
    constructor
    · simp only [stripWs, if_neg hqc, hsp, Bool.false_and, Bool.false_eq_true, if_false]
      rw [ih2.1]
    · simp only [qtog, List.foldl_cons, if_neg hqc]
      exact ih2.2

theorem stripWs_inside (l : List Char) (h : ∀ c ∈ l, c ≠ '"') :
    stripWs l true = l ∧ qtog l true = true := by
  induction l with
  | nil => exact ⟨rfl, rfl⟩
  | cons c l ih =>
    have hqc : c ≠ '"' := h c (List.mem_cons_self _ _)
    have ih2 := ih fun x hx => h x (List.mem_cons_of_mem _ hx)
    constructor
    · simp only [stripWs, if_neg hqc, Bool.not_true, Bool.and_false, Bool.false_eq_true,
        if_false]
      rw [ih2.1]
    · simp only [qtog, List.foldl_cons, if_neg hqc]
      exact ih2.2

theorem stripWs_quoted (l : List Char) (hq : ∀ c ∈ l, c ≠ '"') :
    stripWs ('"' :: l ++ ['"']) false = '"' :: l ++ ['"'] ∧
    qtog ('"' :: l ++ ['"']) false = false := by
  constructor
  · rw [List.cons_append, stripWs_cons_quote, Bool.not_false,
      stripWs_append l ['"'] true, (stripWs_inside l hq).1, (stripWs_inside l hq).2,
      stripWs_cons_quote]
    rfl
  · rw [List.cons_append, qtog_cons_quote, Bool.not_false, qtog_append,
      (stripWs_inside l hq).2, qtog_cons_quote]
    rfl

theorem ws_chunk_append (a b : List Char)
    (ha : stripWs a false = a ∧ qtog a false = false)
    (hb : stripWs b false = b ∧ qtog b false = false) :
    stripWs (a ++ b) false = a ++ b ∧ qtog (a ++ b) false = false := by
  constructor
  · rw [stripWs_append, ha.1, ha.2, hb.1]
  · rw [qtog_append, ha.2, hb.2]

theorem isNumberCh_clean (c : Char) (h : isNumberCh c = true) :
    isSpaceCh c = false ∧ c ≠ '"' := by
  refine ⟨?_, isNumberCh_ne c '"' h (by decide)⟩
  cases hb : isSpaceCh c with
  | false => rfl
  | true =>
    simp only [isSpaceCh, Bool.or_eq_true, decide_eq_true_eq] at hb
    rcases hb with ((((rfl | rfl) | rfl) | rfl) | rfl) | rfl <;> exact absurd h (by decide)

mutual

theorem ws_node (t : Node) (hg : Good t = true) :
    stripWs (dumpChars t) false = dumpChars t ∧ qtog (dumpChars t) false = false := by
  cases t with
  | null => exact absurd hg (by decide)
  | float r => simp [Good] at hg
  | bool b =>
    cases b
    · exact stripWs_clean ['f', 'a', 'l', 's', 'e'] (by decide) false
    · exact stripWs_clean ['t', 'r', 'u', 'e'] (by decide) false
  | int n =>
    have h0 : 0 ≤ n := of_decide_eq_true hg
    show stripWs (intChars n) false = intChars n ∧ qtog (intChars n) false = false
    rw [intChars, if_neg (by omega : ¬ n < 0)]
    exact stripWs_clean _ (fun c hc => isNumberCh_clean c (natDigits_digits _ c hc)) false
  | string s =>
    have hq : ∀ c ∈ s.data, c ≠ '"' :=
      (contains_false_iff _ _).mp (by simpa [Good] using hg)
    exact stripWs_quoted s.data hq
  | object ch =>
    have hge : goodEntries ch = true := ((Bool.and_eq_true _ _).mp hg).2
    have hshape : dumpChars (.object ch) = ['{'] ++ (dumpEntries ch ++ ['}']) := by
      simp [dumpChars]
    rw [hshape]
    exact ws_chunk_append _ _ (stripWs_clean ['{'] (by decide) false)
      (ws_chunk_append _ _ (ws_entries ch hge) (stripWs_clean ['}'] (by decide) false))
  | list ch =>
    have hgi : goodItems ch = true := hg
    have hshape : dumpChars (.list ch) = ['['] ++ (dumpItems ch ++ [']']) := by
      simp [dumpChars]
    rw [hshape]
    exact ws_chunk_append _ _ (stripWs_clean ['['] (by decide) false)
      (ws_chunk_append _ _ (ws_items ch hgi) (stripWs_clean [']'] (by decide) false))

theorem ws_entries (es : List (String × Node)) (hg : goodEntries es = true) :
    stripWs (dumpEntries es) false = dumpEntries es ∧ qtog (dumpEntries es) false = false := by
  cases es with
  | nil => exact ⟨rfl, rfl⟩
  | cons e rest =>
    obtain ⟨k, v⟩ := e
    have hg2 : (!(k.data.contains '"')) = true ∧ Good v = true ∧ goodEntries rest = true := by
      simpa [goodEntries, Bool.and_eq_true, and_assoc] using hg
    have hq : ∀ c ∈ k.data, c ≠ '"' :=
      (contains_false_iff _ _).mp (by simpa using hg2.1)
    have hshape : dumpEntries ((k, v) :: rest) =
        ('"' :: k.data ++ ['"']) ++ ([':'] ++ (dumpChars v ++
          (if rest.isEmpty then [] else ',' :: dumpEntries rest))) := by
      simp [dumpEntries, List.append_assoc]
    rw [hshape]
    refine ws_chunk_append _ _ (stripWs_quoted k.data hq)
      (ws_chunk_append _ _ (stripWs_clean [':'] (by decide) false)
        (ws_chunk_append _ _ (ws_node v hg2.2.1) ?_))
    cases rest with
    | nil => exact ⟨rfl, rfl⟩
    | cons e2 rest2 =>
      have hsep : (if ((e2 :: rest2) : List (String × Node)).isEmpty then ([] : List Char)
          else ',' :: dumpEntries (e2 :: rest2)) = [','] ++ dumpEntries (e2 :: rest2) := by
        simp
      rw [hsep]
      exact ws_chunk_append _ _ (stripWs_clean [','] (by decide) false)
        (ws_entries (e2 :: rest2) hg2.2.2)

theorem ws_items (ts : List Node) (hg : goodItems ts = true) :
    stripWs (dumpItems ts) false = dumpItems ts ∧ qtog (dumpItems ts) false = false := by
  cases ts with
  | nil => exact ⟨rfl, rfl⟩
  | cons v rest =>
    have hg2 : Good v = true ∧ goodItems rest = true := by
      simpa [goodItems, Bool.and_eq_true] using hg
    have hshape : dumpItems (v :: rest) =
        dumpChars v ++ (if rest.isEmpty then [] else ',' :: dumpItems rest) := by
      simp [dumpItems]
    rw [hshape]
    refine ws_chunk_append _ _ (ws_node v hg2.1) ?_
    cases rest with
    | nil => exact ⟨rfl, rfl⟩
    | cons v2 rest2 =>
      have hsep : (if ((v2 :: rest2) : List Node).isEmpty then ([] : List Char)
          else ',' :: dumpItems (v2 :: rest2)) = [','] ++ dumpItems (v2 :: rest2) := by
        simp
      rw [hsep]
      exact ws_chunk_append _ _ (stripWs_clean [','] (by decide) false)
        (ws_items (v2 :: rest2) hg2.2)

end

mutual

theorem cost_le_node (t : Node) (hg : Good t = true) : cost t ≤ 4 * (dumpChars t).length := by
  cases t with
  | null => exact absurd hg (by decide)
  | float r => simp [Good] at hg
  | bool b => cases b <;> decide
  | int n =>
    have h0 : 0 ≤ n := of_decide_eq_true hg
    have h1 : (natDigits n.toNat).length ≠ 0 :=
      fun he => natDigits_ne_nil n.toNat (List.length_eq_zero.mp he)
    show cost (.int n) ≤ 4 * (intChars n).length
    rw [intChars, if_neg (by omega : ¬ n < 0)]
    simp only [cost]
    omega
  | string s =>
    simp only [cost, dumpChars, List.length_cons, List.length_append]
    omega
  | object ch =>
    have hge : goodEntries ch = true := ((Bool.and_eq_true _ _).mp hg).2
    have ih := cost_le_entries ch hge
    simp only [cost, dumpChars, List.length_cons, List.length_append,
      List.length_singleton]
    omega
  | list ch =>
    have ih := cost_le_items ch hg
    simp only [cost, dumpChars, List.length_cons, List.length_append,
      List.length_singleton]
    omega

theorem cost_le_entries (es : List (String × Node)) (hg : goodEntries es = true) :
    costEntries es ≤ 4 * (dumpEntries es).length + 6 := by
  cases es with
  | nil => decide
  | cons e rest =>
    obtain ⟨k, v⟩ := e
    have hg2 : (!(k.data.contains '"')) = true ∧ Good v = true ∧ goodEntries rest = true := by
      simpa [goodEntries, Bool.and_eq_true, and_assoc] using hg
    have ihv := cost_le_node v hg2.2.1
    cases rest with
    | nil =>
      have hc : costEntries [(k, v)] = 1 + cost v + 1 := rfl
      have hl : (dumpEntries [(k, v)]).length =
          k.data.length + 3 + (dumpChars v).length := by
        rw [show dumpEntries [(k, v)] = '"' :: k.data ++ '"' :: ':' :: dumpChars v ++ []
          from rfl]
        simp only [List.length_cons, List.length_append, List.append_nil, List.length_nil]
        omega
      rw [hc, hl]
      omega
    | cons e2 rest2 =>
      have ihr := cost_le_entries (e2 :: rest2) hg2.2.2
      have hc : costEntries ((k, v) :: e2 :: rest2) =
          1 + cost v + costEntries (e2 :: rest2) := rfl
      have hl : (dumpEntries ((k, v) :: e2 :: rest2)).length =
          k.data.length + 4 + (dumpChars v).length + (dumpEntries (e2 :: rest2)).length := by
        rw [show dumpEntries ((k, v) :: e2 :: rest2) =
          '"' :: k.data ++ '"' :: ':' :: dumpChars v ++ (',' :: dumpEntries (e2 :: rest2))
          from rfl]
        simp only [List.length_cons, List.length_append]
        omega
      rw [hc, hl]
      omega

theorem cost_le_items (ts : List Node) (hg : goodItems ts = true) :
    costItems ts ≤ 4 * (dumpItems ts).length + 6 := by
  cases ts with
  | nil => decide
  | cons v rest =>
    have hg2 : Good v = true ∧ goodItems rest = true := by
      simpa [goodItems, Bool.and_eq_true] using hg
    have ihv := cost_le_node v hg2.1
    cases rest with
    | nil =>
      have hc : costItems [v] = 1 + cost v + 1 := rfl
      have hl : (dumpItems [v]).length = (dumpChars v).length := by
        rw [show dumpItems [v] = dumpChars v ++ [] from rfl, List.append_nil]
      rw [hc, hl]
      have h1 : (dumpChars v).length ≠ 0 := by
        intro he
        have := cost_le_node v hg2.1
        rw [he] at this
        have hcv : 1 ≤ cost v := by cases v <;> simp [cost]
        omega
      omega
    | cons v2 rest2 =>
      have ihr := cost_le_items (v2 :: rest2) hg2.2
      have hc : costItems (v :: v2 :: rest2) = 1 + cost v + costItems (v2 :: rest2) := rfl
      have hl : (dumpItems (v :: v2 :: rest2)).length =
          (dumpChars v).length + 1 + (dumpItems (v2 :: rest2)).length := by
        rw [show dumpItems (v :: v2 :: rest2) =
          dumpChars v ++ (',' :: dumpItems (v2 :: rest2)) from rfl]
        simp only [List.length_cons, List.length_append]
        omega
      rw [hc, hl]
      omega

end

theorem descend_step (f : Nat) (s : List Char) :
    parseRun (f + 1) (.descend s) =
      if peek s = '{' then parseRun f (.objLoop [] (s.drop 1))
      else if peek s = '[' then parseRun f (.listLoop [] (s.drop 1))
      else parseValue s :=
  rfl

theorem objLoop_step (f : Nat) (acc : List (String × Node)) (s : List Char) :
    parseRun (f + 1) (.objLoop acc s) =
      if peek s = '}' then .ok (.object acc, s.drop 1)
      else if peek s = '"' then
        if ((s.drop 1).dropWhile (fun c => !(c = '"'))).isEmpty then .error .diverge
        else
          (parseRun f
            (.descend (((s.drop 1).dropWhile (fun c => !(c = '"'))).drop 2))).bind fun vs =>
            parseRun f
              (.objLoop (mapInsert ⟨(s.drop 1).takeWhile (fun c => !(c = '"'))⟩ vs.1 acc)
                (if peek vs.2 = '}' then vs.2 else vs.2.drop 1))
      else .error .malformed :=
  rfl

theorem listLoop_step (f : Nat) (acc : List Node) (s : List Char) :
    parseRun (f + 1) (.listLoop acc s) =
      if peek s = ']' then .ok (.list acc, s.drop 1)
      else
        (parseRun f (.descend s)).bind fun vs =>
          parseRun f (.listLoop (acc ++ [vs.1]) (if peek vs.2 = ']' then vs.2 else vs.2.drop 1)) :=
  rfl

theorem good_dump_head (t : Node) (hg : Good t = true) :
    ∃ c l, dumpChars t = c :: l ∧ c ≠ ']' := by
  cases t with
  | null => exact absurd hg (by decide)
  | float r => simp [Good] at hg
  | bool b =>
    cases b
    · exact ⟨'f', _, rfl, by decide⟩
    · exact ⟨'t', _, rfl, by decide⟩
  | int n =>
    have h0 : 0 ≤ n := of_decide_eq_true hg
    obtain ⟨c, l, hcl, hc⟩ := natDigits_head n.toNat
    refine ⟨c, l, ?_, isNumberCh_ne c ']' hc (by decide)⟩
    rw [show dumpChars (.int n) = intChars n from rfl, intChars,
      if_neg (by omega : ¬ n < 0)]
    exact hcl
  | string s => exact ⟨'"', _, rfl, by decide⟩
  | object ch => exact ⟨'{', _, rfl, by decide⟩
  | list ch => exact ⟨'[', _, rfl, by decide⟩

theorem objLoop_iter (f : Nat) (acc : List (String × Node)) (k : String) (v : Node)
    (R : List Char) (hq : ∀ c ∈ k.data, c ≠ '"')
    (hchild : parseRun f (.descend (dumpChars v ++ R)) = .ok (v, R)) :
    parseRun (f + 1) (.objLoop acc ('"' :: k.data ++ '"' :: ':' :: (dumpChars v ++ R))) =
      parseRun f (.objLoop (mapInsert k v acc) (if peek R = '}' then R else R.drop 1)) := by
  have hp : ∀ c ∈ k.data, (fun c => !(c = '"')) c = true := fun c hc => by simp [hq c hc]
  have hpk : peek ('"' :: k.data ++ '"' :: ':' :: (dumpChars v ++ R)) = '"' := rfl
  rw [objLoop_step, hpk]
  rw [if_neg (show ¬ ('"' : Char) = '}' from by decide)]
  rw [if_pos (rfl : ('"' : Char) = '"')]
  have hdrop : ('"' :: k.data ++ '"' :: ':' :: (dumpChars v ++ R)).drop 1 =
      k.data ++ '"' :: ':' :: (dumpChars v ++ R) := rfl
  rw [hdrop]
  have hdw : (k.data ++ '"' :: ':' :: (dumpChars v ++ R)).dropWhile (fun c => !(c = '"')) =
      '"' :: ':' :: (dumpChars v ++ R) := by
    rw [List.dropWhile_append_of_pos hp, List.dropWhile_cons_of_neg (by simp)]
  have htw : (k.data ++ '"' :: ':' :: (dumpChars v ++ R)).takeWhile (fun c => !(c = '"')) =
      k.data := by
    rw [List.takeWhile_append_of_pos hp, List.takeWhile_cons_of_neg (by simp),
      List.append_nil]
  rw [hdw, htw]
  rw [if_neg (by simp : ¬ (('"' :: ':' :: (dumpChars v ++ R)).isEmpty = true))]
  rw [show ('"' :: ':' :: (dumpChars v ++ R)).drop 2 = dumpChars v ++ R from rfl]
  rw [hchild]
  rw [show (⟨k.data⟩ : String) = k from rfl]
  rfl

theorem listLoop_iter (f : Nat) (acc : List Node) (v : Node) (R : List Char)
    (hg : Good v = true)
    (hchild : parseRun f (.descend (dumpChars v ++ R)) = .ok (v, R)) :
    parseRun (f + 1) (.listLoop acc (dumpChars v ++ R)) =
      parseRun f (.listLoop (acc ++ [v]) (if peek R = ']' then R else R.drop 1)) := by
  obtain ⟨c, l, hcl, hc⟩ := good_dump_head v hg
  rw [listLoop_step]
  rw [if_neg (by rw [hcl, show peek ((c :: l) ++ R) = c from rfl]; exact hc)]
  rw [hchild]
  rfl

mutual

theorem parse_dump_node (t : Node) (hg : Good t = true) (rest : List Char) (fuel : Nat)
    (hfuel : cost t ≤ fuel) (hrest : numPred (peek rest) = false) :
    parseRun fuel (.descend (dumpChars t ++ rest)) = .ok (t, rest) := by
  cases t with
  | null => exact absurd hg (by decide)
  | float r => simp [Good] at hg
  | bool b =>
    cases fuel with
    | zero =>
      simp only [cost] at hfuel
      omega
    | succ f =>
      cases b
      · rw [show dumpChars (.bool false) = ['f', 'a', 'l', 's', 'e'] from rfl]
        rw [show parseRun (f + 1) (.descend (['f', 'a', 'l', 's', 'e'] ++ rest)) =
          parseValue (['f', 'a', 'l', 's', 'e'] ++ rest) from rfl]
        exact parseValue_false_dump rest
      · rw [show dumpChars (.bool true) = ['t', 'r', 'u', 'e'] from rfl]
        rw [show parseRun (f + 1) (.descend (['t', 'r', 'u', 'e'] ++ rest)) =
          parseValue (['t', 'r', 'u', 'e'] ++ rest) from rfl]
        exact parseValue_true_dump rest
  | int n =>
    have h0 : 0 ≤ n := of_decide_eq_true hg
    obtain ⟨c, l, hcl, hc⟩ := natDigits_head n.toNat
    cases fuel with
    | zero =>
      simp only [cost] at hfuel
      omega
    | succ f =>
      have hdump : dumpChars (.int n) = natDigits n.toNat := by
        rw [show dumpChars (.int n) = intChars n from rfl, intChars,
          if_neg (by omega : ¬ n < 0)]
      rw [hdump, descend_step]
      have hpk : peek (natDigits n.toNat ++ rest) = c := by
        rw [hcl]
        rfl
      rw [hpk, if_neg (isNumberCh_ne c '{' hc (by decide)),
        if_neg (isNumberCh_ne c '[' hc (by decide)),
        parseValue_digits n.toNat rest hrest, Int.toNat_of_nonneg h0]
  | string s =>
    have hq : ∀ c ∈ s.data, c ≠ '"' :=
      (contains_false_iff _ _).mp (by simpa [Good] using hg)
    cases fuel with
    | zero =>
      simp only [cost] at hfuel
      omega
    | succ f =>
      have hshape : dumpChars (.string s) ++ rest = '"' :: s.data ++ '"' :: rest := by
        simp [dumpChars]
      rw [hshape, descend_step,
        show peek ('"' :: s.data ++ '"' :: rest) = '"' from rfl,
        if_neg (by decide), if_neg (by decide),
        parseValue_quoted s.data rest hq]
  | object ch =>
    have hks : keysSorted ch = true := ((Bool.and_eq_true _ _).mp hg).1
    have hge : goodEntries ch = true := ((Bool.and_eq_true _ _).mp hg).2
    cases fuel with
    | zero =>
      simp only [cost] at hfuel
      omega
    | succ f =>
      simp only [cost] at hfuel
      have hshape : dumpChars (.object ch) ++ rest = '{' :: (dumpEntries ch ++ '}' :: rest) := by
        simp [dumpChars]
      rw [hshape, descend_step,
        show peek ('{' :: (dumpEntries ch ++ '}' :: rest)) = '{' from rfl,
        if_pos rfl,
        show ('{' :: (dumpEntries ch ++ '}' :: rest)).drop 1 = dumpEntries ch ++ '}' :: rest
          from rfl]
      have hrec := parse_dump_entries ch hge [] rest f (by omega)
        (by rw [List.nil_append]; exact keysSorted_pairwise ch hks)
      rw [List.nil_append] at hrec
      exact hrec
  | list ch =>
    cases fuel with
    | zero =>
      simp only [cost] at hfuel
      omega
    | succ f =>
      simp only [cost] at hfuel
      have hshape : dumpChars (.list ch) ++ rest = '[' :: (dumpItems ch ++ ']' :: rest) := by
        simp [dumpChars]
      rw [hshape, descend_step,
        show peek ('[' :: (dumpItems ch ++ ']' :: rest)) = '[' from rfl,
        if_neg (by decide), if_pos rfl,
        show ('[' :: (dumpItems ch ++ ']' :: rest)).drop 1 = dumpItems ch ++ ']' :: rest
          from rfl]
      have hrec := parse_dump_items ch hg [] rest f (by omega)
      rw [List.nil_append] at hrec
      exact hrec

theorem parse_dump_entries (es : List (String × Node)) (hg : goodEntries es = true)
    (acc : List (String × Node)) (rest : List Char) (fuel : Nat)
    (hfuel : costEntries es ≤ fuel)
    (hpw : List.Pairwise (fun a b : String × Node => keyLt a.1 b.1 = true) (acc ++ es)) :
    parseRun fuel (.objLoop acc (dumpEntries es ++ '}' :: rest)) =
      .ok (.object (acc ++ es), rest) := by
  cases es with
  | nil =>
    cases fuel with
    | zero =>
      simp only [costEntries] at hfuel
      omega
    | succ f =>
      rw [show parseRun (f + 1) (.objLoop acc (dumpEntries [] ++ '}' :: rest)) =
        .ok (.object acc, rest) from rfl, List.append_nil]
  | cons e es2 =>
    obtain ⟨k, v⟩ := e
    have hg2 : (!(k.data.contains '"')) = true ∧ Good v = true ∧ goodEntries es2 = true := by
      simpa [goodEntries, Bool.and_eq_true, and_assoc] using hg
    have hq : ∀ c ∈ k.data, c ≠ '"' :=
      (contains_false_iff _ _).mp (by simpa using hg2.1)
    have hlt : ∀ x ∈ acc, keyLt x.1 k = true := by
      intro x hx
      exact (List.pairwise_append.mp hpw).2.2 x hx (k, v) (List.mem_cons_self _ _)
    have hacc : mapInsert k v acc = acc ++ [(k, v)] := mapInsert_gt k v acc hlt
    have happ : (acc ++ [(k, v)]) ++ es2 = acc ++ (k, v) :: es2 := by simp
    cases fuel with
    | zero =>
      simp only [costEntries] at hfuel
      omega
    | succ f =>
      simp only [costEntries] at hfuel
      cases es2 with
      | nil =>
        have hshape : dumpEntries [(k, v)] ++ '}' :: rest =
            '"' :: k.data ++ '"' :: ':' :: (dumpChars v ++ '}' :: rest) := by
          simp [dumpEntries, List.append_assoc]
        have hchild : parseRun f (.descend (dumpChars v ++ '}' :: rest)) =
            .ok (v, '}' :: rest) :=
          parse_dump_node v hg2.2.1 ('}' :: rest) f (by omega) rfl
        rw [hshape, objLoop_iter f acc k v ('}' :: rest) hq hchild,
          show peek ('}' :: rest) = '}' from rfl, if_pos rfl, hacc]
        have hrec := parse_dump_entries [] rfl (acc ++ [(k, v)]) rest f
          (by simp only [costEntries] at hfuel ⊢; omega)
          (by rw [List.append_nil]; exact hpw)
        rw [List.append_nil] at hrec
        exact hrec
      | cons e2 es3 =>
        have hshape : dumpEntries ((k, v) :: e2 :: es3) ++ '}' :: rest =
            '"' :: k.data ++ '"' :: ':' ::
              (dumpChars v ++ ',' :: (dumpEntries (e2 :: es3) ++ '}' :: rest)) := by
          simp [dumpEntries, List.append_assoc]
        have hchild : parseRun f
            (.descend (dumpChars v ++ ',' :: (dumpEntries (e2 :: es3) ++ '}' :: rest))) =
            .ok (v, ',' :: (dumpEntries (e2 :: es3) ++ '}' :: rest)) :=
          parse_dump_node v hg2.2.1 _ f (by omega) rfl
        rw [hshape, objLoop_iter f acc k v _ hq hchild,
          show peek (',' :: (dumpEntries (e2 :: es3) ++ '}' :: rest)) = ',' from rfl,
          if_neg (by decide),
          show (',' :: (dumpEntries (e2 :: es3) ++ '}' :: rest)).drop 1 =
            dumpEntries (e2 :: es3) ++ '}' :: rest from rfl, hacc]
        have hrec := parse_dump_entries (e2 :: es3) hg2.2.2 (acc ++ [(k, v)]) rest f
          (by omega) (by rw [happ]; exact hpw)
        rw [hrec, happ]

theorem parse_dump_items (ts : List Node) (hg : goodItems ts = true)
    (acc : List Node) (rest : List Char) (fuel : Nat) (hfuel : costItems ts ≤ fuel) :
    parseRun fuel (.listLoop acc (dumpItems ts ++ ']' :: rest)) =
      .ok (.list (acc ++ ts), rest) := by
  cases ts with
  | nil =>
    cases fuel with
    | zero =>
      simp only [costItems] at hfuel
      omega
    | succ f =>
      rw [show parseRun (f + 1) (.listLoop acc (dumpItems [] ++ ']' :: rest)) =
        .ok (.list acc, rest) from rfl, List.append_nil]
  | cons v ts2 =>
    have hg2 : Good v = true ∧ goodItems ts2 = true := by
      simpa [goodItems, Bool.and_eq_true] using hg
    cases fuel with
    | zero =>
      simp only [costItems] at hfuel
      omega
    | succ f =>
      simp only [costItems] at hfuel
      cases ts2 with
      | nil =>
        have hshape : dumpItems [v] ++ ']' :: rest = dumpChars v ++ ']' :: rest := by
          simp [dumpItems]
        have hchild : parseRun f (.descend (dumpChars v ++ ']' :: rest)) =
            .ok (v, ']' :: rest) :=
          parse_dump_node v hg2.1 (']' :: rest) f (by omega) rfl
        rw [hshape, listLoop_iter f acc v (']' :: rest) hg2.1 hchild,
          show peek (']' :: rest) = ']' from rfl, if_pos rfl]
        have hrec := parse_dump_items [] rfl (acc ++ [v]) rest f
          (by simp only [costItems] at hfuel ⊢; omega)
        rw [List.append_nil] at hrec
        exact hrec
      | cons v2 ts3 =>
        have hshape : dumpItems (v :: v2 :: ts3) ++ ']' :: rest =
            dumpChars v ++ ',' :: (dumpItems (v2 :: ts3) ++ ']' :: rest) := by
          simp [dumpItems, List.append_assoc]
        have hchild : parseRun f
            (.descend (dumpChars v ++ ',' :: (dumpItems (v2 :: ts3) ++ ']' :: rest))) =
            .ok (v, ',' :: (dumpItems (v2 :: ts3) ++ ']' :: rest)) :=
          parse_dump_node v hg2.1 _ f (by omega) rfl
        rw [hshape, listLoop_iter f acc v _ hg2.1 hchild,
          show peek (',' :: (dumpItems (v2 :: ts3) ++ ']' :: rest)) = ',' from rfl,
          if_neg (by decide),
          show (',' :: (dumpItems (v2 :: ts3) ++ ']' :: rest)).drop 1 =
            dumpItems (v2 :: ts3) ++ ']' :: rest from rfl]
        have hrec := parse_dump_items (v2 :: ts3) hg2.2 (acc ++ [v]) rest f (by omega)
        rw [hrec]
        simp

end

/-! Claim C7 — the whitespace-removal first pass. -/

/-- C7.  The parser's first pass removes exactly those whitespace
characters that fall outside double-quoted string regions, where the
in-string flag toggles on every `'"'` encountered (backslash escapes are
not understood: an escaped quote toggles the tracker like any other
quote, since `stripWs` inspects single characters only); everything else
is preserved verbatim and in order.  Stated as: the pass coincides with
the quote-counting description `removeWsSpec` (a character is dropped
exactly when it is whitespace and the count of quotes seen is even), and
its output is a sublist of the input (order-preserving, nothing
inserted). -/
theorem stripWs_exactly_outside_quotes (cs : List Char) :
    stripWs cs false = removeWsSpec cs 0 ∧ (stripWs cs false).Sublist cs :=
  ⟨by simpa using stripWs_toggle cs 0, stripWs_sublist cs false⟩

/-! Claim C5 — key navigation on a non-Object node. -/

/-- C5.  `operator[](std::string)` — both the document-level
`Json::operator[]` and `Json::View::operator[]`, whose bodies are
identical — throws `WrongObjectType::NotObject()` whenever the bound
node's kind is not `Object`; in particular on a List node. -/
theorem navKey_notObject (n : Node) (key : String) (h : n.type ≠ Concrete.Object) :
    navKey n key = .error .notObject := by
  cases n with
  | object ch => exact absurd rfl h
  | _ => rfl

/-- Witness for C5: `["key"]` on a List-typed value fails with
`NotObject`. -/
theorem navKey_notObject_witness :
    navKey (Node.list []) "key" = .error .notObject :=
  navKey_notObject (Node.list []) "key" (by decide)

/-! Claim C9 — frame conditions of key navigation on an Object. -/

/-- C9.  On an Object node, `operator[](key)`: if the key is present it
returns a `View` bound to the existing child and the tree is unchanged
(no entry added, removed or modified); if the key is absent the only
change is the insertion of a single Null child under that key — every
other key still looks up to exactly the value it had before. -/
theorem navKey_frame (ch : List (String × Node)) (key : String) :
    (∀ c, mapFind key ch = some c → navKey (.object ch) key = .ok (.object ch, c)) ∧
    (mapFind key ch = none →
      navKey (.object ch) key = .ok (.object (mapInsert key .null ch), .null) ∧
      ∀ k2, k2 ≠ key → mapFind k2 (mapInsert key .null ch) = mapFind k2 ch) := by
  refine ⟨fun c hc => ?_, fun h => ⟨?_, fun k2 hk2 => mapFind_mapInsert_ne k2 key .null ch hk2⟩⟩
  · simp [navKey, hc]
  · simp [navKey, h]

/-- Witness for C9, both branches at concrete inputs: looking up the
present key `"a"` returns the stored child and the unchanged map;
looking up the absent key `"b"` inserts exactly one Null entry and `"a"`
still maps to its old value. -/
theorem navKey_frame_witness :
    navKey (Node.object [("a", Node.int 3)]) "a" =
      .ok (.object [("a", Node.int 3)], Node.int 3) ∧
    navKey (Node.object [("a", Node.int 3)]) "b" =
      .ok (.object (mapInsert "b" .null [("a", Node.int 3)]), .null) ∧
    mapFind "a" (mapInsert "b" .null [("a", Node.int 3)]) = some (Node.int 3) :=
  ⟨(navKey_frame [("a", Node.int 3)] "a").1 (Node.int 3) rfl,
   ((navKey_frame [("a", Node.int 3)] "b").2 rfl).1,
   ((navKey_frame [("a", Node.int 3)] "b").2 rfl).2 "a" (by decide)⟩

/-! Claim C1 — chained navigation does not auto-vivify intermediate
Objects. -/

/-- C1 counterexample, at the claim's own input.  On an empty Object
root, `root["a"]` inserts a `NullNode` under `"a"` and returns a `View`
bound to it; the chained `["b"]` then finds a Null-typed bound node and
throws `WrongObjectType::NotObject()` (json.cpp line 288) instead of
turning the Null into an Object.  The tree left behind serializes to
`{"a":null}`, not to the claimed `{"a":{"b":null}}`. -/
theorem navChain_autoviv_counterexample :
    (navChainSt (Node.object []) ["a", "b"]).2 = .error .notObject ∧
    Node.dump (navChainSt (Node.object []) ["a", "b"]).1 = "\x7b\"a\":null\x7d" ∧
    "\x7b\"a\":null\x7d" ≠ "\x7b\"a\":\x7b\"b\":null\x7d\x7d" :=
  ⟨rfl, rfl, by decide⟩

/-- C1 amended.  Reading `root["a"]` on an empty Object root inserts a
single Null child (the auto-vivification the source performs); the
subsequent `["b"]` fails with `WrongType(NotObject)` because the freshly
inserted node is Null, not an Object — intermediate Objects are never
auto-vivified — and the tree afterwards serializes to `{"a":null}`. -/
theorem navChain_autoviv_amended :
    navKey (Node.object []) "a" = .ok (.object [("a", .null)], .null) ∧
    (∀ key, navKey Node.null key = .error .notObject) ∧
    navChainSt (Node.object []) ["a", "b"] =
      (Node.object [("a", Node.null)], .error .notObject) ∧
    Node.dump (Node.object [("a", Node.null)]) = "\x7b\"a\":null\x7d" :=
  ⟨rfl, fun _ => rfl, rfl, rfl⟩

/-! Claim C2 — typed access performs no kind check. -/

/-- C2 counterexample.  Reading an Int-holding node through the
String-typed accessor does not fail with `WrongType(NotLeaf(String))`:
`View::as<T>` (json.hpp lines 182-185) is a bare
`static_pointer_cast<ValueNode<T>>(*node)->value()` with no kind test
and no throw path, so the mismatched read is an unchecked downcast —
undefined behaviour, embedded as `none` — and the typed assignment
`operator=` (lines 177-181) is the same unchecked cast on the write
side.  `WrongObjectType::NotLeaf<T>` exists (json.hpp line 77) but no
code path raises it. -/
theorem viewAs_unchecked_counterexample :
    viewAs (Node.int 5) LeafTy.string = none ∧
    viewAssign (Node.int 5) (LeafVal.string "x") = none :=
  ⟨rfl, rfl⟩

/-- C2 amended.  `view.as<T>()` and `view = value` perform no kind
check: when the bound node's kind matches `T` the read returns the
stored value and the write overwrites it in place; when it does not
match (other leaf kind, Null, or a container) the unchecked downcast is
undefined behaviour — no `WrongType(NotLeaf(T))` error is ever
raised. -/
theorem viewAs_unchecked (n : Node) (T : LeafTy) (v : LeafVal) :
    ((viewAs n T).isSome ↔ n.type = ValueTypeGet T) ∧
    ((viewAssign n v).isSome ↔ n.type = ValueTypeGet v.ty) ∧
    (∀ m, viewAssign n v = some m → m = jsonOfLeaf v) := by
  cases n <;> cases T <;> cases v <;>
    simp [viewAs, viewAssign, Node.type, ValueTypeGet, LeafVal.ty, jsonOfLeaf]

/-- Witness for C2 amended: a matching-kind assignment stores the new
value. -/
theorem viewAs_unchecked_witness : Node.int 7 = jsonOfLeaf (LeafVal.int 7) :=
  (viewAs_unchecked (Node.int 5) LeafTy.int (LeafVal.int 7)).2.2 (Node.int 7) rfl

/-! Claim C4 — `Malformed` on unrecognized scalar tokens. -/

/-- C4.  Parsing `{"a":}` fails with `Malformed`; and in general,
whenever `parseValue` meets a leading token that is not a `true`/`false`
literal, not a digit, and not a `'"'`, the parse fails with the single
error kind `Malformed` (json.cpp line 233) — and, the result being an
`error`, no partial tree is returned. -/
theorem parse_malformed_scalar :
    parse "\x7b\"a\":\x7d" = .error .malformed ∧
    ∀ s : List Char, s.take 4 ≠ ['t', 'r', 'u', 'e'] →
      s.take 5 ≠ ['f', 'a', 'l', 's', 'e'] →
      isNumberCh (peek s) = false → peek s ≠ '"' →
      parseValue s = .error .malformed := by
  refine ⟨rfl, fun s h1 h2 h3 h4 => ?_⟩
  rw [parseValue, if_neg h1, if_neg h2, if_neg (by simp [h3]), if_neg h4]

/-- Witness for C4: the character after `{"a":` is `}`, an unrecognized
leading token for `parseValue`. -/
theorem parse_malformed_scalar_witness : parseValue ['}'] = .error .malformed :=
  parse_malformed_scalar.2 ['}'] (by decide) (by decide) (by decide) (by decide)

/-! Claim C6 — the number-consuming loop. -/

/-- C6 counterexample.  The loop `while (json[index] == '.' ||
is_number(json[index]))` (json.cpp line 217) places no bound on the
number of dots: on `1.2.3]` it consumes the full five-character run
`1.2.3`, which contains two dots, leaving only `]` — not the at-most-one
dot the claim states. -/
theorem parseValue_twodots_counterexample :
    parseValue ['1', '.', '2', '.', '3', ']'] =
      .ok (.float ⟨['1', '.', '2', '.', '3']⟩, [']']) ∧
    (['1', '.', '2', '.', '3'].count '.') = 2 :=
  ⟨rfl, rfl⟩

/-- C6 amended.  When the scalar parser's cursor is on a digit (the
`true`/`false` literal checks, made first, cannot match a digit), it
consumes the maximal run of characters that are digits or `'.'` — any
number of dots, not at most one — and classifies the token as Float if
any dot was seen, else as Int, converting the digit run with `atoi`. -/
theorem parseValue_number (s : List Char) (h : isNumberCh (peek s) = true) :
    s.takeWhile numPred ≠ [] ∧
    s = s.takeWhile numPred ++ s.dropWhile numPred ∧
    (∀ c ∈ s.takeWhile numPred, numPred c = true) ∧
    numPred (peek (s.dropWhile numPred)) = false ∧
    ((s.takeWhile numPred).contains '.' = true →
      parseValue s = .ok (.float ⟨s.takeWhile numPred⟩, s.dropWhile numPred)) ∧
    ((s.takeWhile numPred).contains '.' = false →
      parseValue s = .ok (.int (digitsVal (s.takeWhile numPred)), s.dropWhile numPred)) := by
  obtain ⟨c, s', rfl⟩ : ∃ c s', s = c :: s' := by
    cases s with
    | nil => exact absurd h (by decide)
    | cons c s' => exact ⟨c, s', rfl⟩
  have hc : isNumberCh c = true := h
  have hnum : numPred c = true := by simp [numPred, hc]
  have hct : c ≠ 't' := fun e => by rw [e] at hc; exact absurd hc (by decide)
  have hcf : c ≠ 'f' := fun e => by rw [e] at hc; exact absurd hc (by decide)
  have h1 : (c :: s').take 4 ≠ ['t', 'r', 'u', 'e'] := by
    simp only [List.take_succ_cons]
    intro he
    exact hct (List.cons.inj he).1
  have h2 : (c :: s').take 5 ≠ ['f', 'a', 'l', 's', 'e'] := by
    simp only [List.take_succ_cons]
    intro he
    exact hcf (List.cons.inj he).1
  refine ⟨by simp [List.takeWhile_cons_of_pos hnum],
    (List.takeWhile_append_dropWhile numPred (c :: s')).symm,
    fun x hx => List.mem_takeWhile_imp hx,
    peek_dropWhile numPred (c :: s') (by decide), fun hdot => ?_, fun hdot => ?_⟩ <;>
      rw [parseValue, if_neg h1, if_neg h2, if_pos (show isNumberCh (peek (c :: s')) = true from h)] <;>
        simp only [hdot, if_true, if_false, Bool.false_eq_true]

/-- Witness for C6 amended: on `7]` the consumed token is the single
digit `7`, classified Int with value 7, leaving `]`. -/
theorem parseValue_number_witness :
    parseValue ['7', ']'] = .ok (.int (digitsVal ['7']), [']']) :=
  (parseValue_number ['7', ']'] (by decide)).2.2.2.2.2 (by decide)

/-! Claim C8 — construction aliases, it does not transfer exclusive
ownership. -/

/-- C8 counterexample.  `json::Json x = 5; auto a = json::array({x});
auto b = json::array({x});` leaves the node of `x` referenced by a child
slot of both list nodes: after the two constructions the original node
(address 0) is owned by two parent slots.  `addChild(value.root)`
(json.cpp line 250) stores the argument's root `shared_ptr` directly;
nothing is copied, so exclusive ownership is not established. -/
theorem jsonArray_shared_counterexample :
    ownerSlots (jsonArray (jsonArray [HNode.int 5] [0]).1 [0]).1 0 = 2 :=
  rfl

/-- C8 amended.  Array construction from a list of Json values and
object construction from (key, value) pairs alias the argument
documents' root pointers (reference-counted sharing, no deep copy): each
occurrence of an address among the arguments adds one owning parent
slot, so a node handed to two constructions — or twice to one — ends up
owned by several parents. -/
theorem jsonArray_aliases (h : List HNode) (roots : List Nat) (a : Nat)
    (entries : List (String × Nat)) (key : String) :
    ownerSlots (jsonArray h roots).1 a = ownerSlots h a + roots.count a ∧
    ownerSlots (jsonObjectInit h [(key, a)]).1 a = ownerSlots h a + 1 := by
  constructor
  · simp [jsonArray, alloc, ownerSlots, slotRefs]
  · simp [jsonObjectInit, alloc, ownerSlots, slotRefs, hmapInsert, List.count_singleton]

/-! Claim C10 — constructing a Json from a C string literal. -/

/-- C10.  `Json::Json(const char*)` delegates to the leaf-template
constructor with `T = std::string`, so the document's root is a String
leaf holding the characters verbatim (readable back through the
String-typed accessor), and serializing emits them quoted — the text is
stored, not parsed as JSON. -/
theorem jsonOfCString_string_leaf (s : String) :
    (jsonOfCString s).type = Concrete.String ∧
    viewAs (jsonOfCString s) LeafTy.string = some (.string s) ∧
    Node.dump (jsonOfCString s) = ⟨'"' :: s.data ++ ['"']⟩ :=
  ⟨rfl, rfl, rfl⟩

/-! Claim C3 — compact-serialize then parse. -/

/-- C3 counterexample.  The tree `Json(-5)` — a programmatically built
Int leaf, no parser involved — compact-serializes to `-5`, and parsing
that text fails with `Malformed`: the scalar parser has no sign
handling, so `-` is an unrecognized leading token (json.cpp line 233).
The round-trip therefore does not hold for every programmatically built
tree.  (A `Null` leaf fails the same way: `dump` prints `null` but the
parser has no `null` literal.) -/
theorem dump_parse_counterexample :
    Node.dump (Node.int (-5)) = "-5" ∧ parse "-5" = .error .malformed :=
  ⟨rfl, rfl⟩

/-- C3 amended.  For every Value tree built programmatically whose
leaves stay inside the grammar the parser accepts — no Null leaf (the
parser has no `null` literal), no negative Int (no sign handling), no
Float leaf (floating-point formatting is beyond the embedding; the
scalar grammar also lacks exponents), and no `"` inside strings or keys
(the serializer does not escape them) — compact-serializing and then
parsing reproduces the tree exactly, object key order included, since
`std::map` keeps every object's entries sorted by key on both sides. -/
theorem dump_parse_roundtrip (t : Node) (h : Good t = true) :
    parse (Node.dump t) = .ok t := by
  have hdata : (Node.dump t).data = dumpChars t := rfl
  have hclean : stripWs (dumpChars t) false = dumpChars t := (ws_node t h).1
  have hcost : cost t ≤ 4 * (dumpChars t).length + 4 := by
    have := cost_le_node t h
    omega
  have hmain := parse_dump_node t h [] (4 * (dumpChars t).length + 4) hcost (by decide)
  rw [List.append_nil] at hmain
  simp only [parse, hdata, hclean]
  rw [show parseRecursively (4 * (dumpChars t).length + 4) (dumpChars t) =
    parseRun (4 * (dumpChars t).length + 4) (.descend (dumpChars t)) from rfl, hmain]

/-- Witness for C3 amended, at the tree `{"a":1,"b":["x",true]}`. -/
theorem dump_parse_roundtrip_witness :
    parse (Node.dump (Node.object [("a", Node.int 1),
      ("b", Node.list [Node.string "x", Node.bool true])])) =
      .ok (Node.object [("a", Node.int 1),
        ("b", Node.list [Node.string "x", Node.bool true])]) :=
  dump_parse_roundtrip _ (by decide)

end CppJson
